import Mathlib

/-!
Shallow embedding of the chaining hash table in `hashset.c` / `hashset.h`
(repository `noncombatant/hashset`).

Modelling choices, kept as close to the C source as Lean allows:

* A stored element (`void*`) is a value of an arbitrary type `α`.
* `Hasher` (`size_t (*)(const void*)`) becomes `α → Nat`; `Comparator`
  (`int (*)(const void*, const void*)`) becomes `α → α → Int`, and the code
  only ever tests its result against `0`, exactly as the C does.
* A bucket's chain of `HashSetElements` nodes becomes a `List α` (one entry
  per chain node, in chain order); the bucket array `HashSetElements**`
  becomes a `List (List α)` of length `count`.  C's `NULL` head is the empty
  list.  Out-of-range bucket reads (`set->elements[hash]`) are modelled with
  `List.getD _ _ []`; all claims carry the well-formedness facts
  (`0 < count`, `elements.length = count`) under which the C index is in
  range, so the default is never actually consulted.
* The `while` loops of `HashSetAdd`, `HashSetGet`, `HashSetRemove` walk one
  chain and become structural recursion over the chain list.
* The `while` loop of `HashSetIteratorNext` is bounded by the loop variant
  `count - bucket`; it becomes structural recursion on that explicit fuel,
  passed as `set.count - i.bucket` at the call site, which makes the
  embedding executable while following the loop body line by line.
-/

set_option autoImplicit false

namespace HashSetC

universe u

variable {α : Type u}

/-- The `HashSet` struct of `hashset.h`: a fixed bucket count, the bucket
array (each bucket the list of elements of its chain, in chain order), and
the caller-supplied hasher and comparator. -/
structure HashSet (α : Type u) where
  count : Nat
  elements : List (List α)
  hasher : α → Nat
  comparator : α → α → Int

/-- The bucket index `set->hasher(element) % set->count` computed at the top
of `HashSetAdd`, `HashSetGet` and `HashSetRemove`. -/
def hashIdx (set : HashSet α) (element : α) : Nat :=
  set.hasher element % set.count

/-- The chain stored at `element`'s bucket, `set->elements[hash]`. -/
def bucketOf (set : HashSet α) (element : α) : List α :=
  set.elements.getD (hashIdx set element) []

/-- The chain walk of `HashSetAdd` (`hashset.c:31-53`): if a node whose
element compares equal is found, its stored reference is overwritten
(`es->element = element`); if the end of the chain is reached, a fresh node
is linked there (`es->next = malloc(...)`); the `es == NULL` head case of the
C code is the `[]` case. -/
def chainAdd (cmp : α → α → Int) (element : α) : List α → List α
  | [] => [element]
  | x :: xs =>
    if cmp x element = 0 then element :: xs else x :: chainAdd cmp element xs

/-- `HashSetAdd` (`hashset.c:31-53`): rewrite the chain of the computed
bucket with `chainAdd`; all other buckets and fields are untouched. -/
def HashSetAdd (set : HashSet α) (element : α) : HashSet α :=
  { set with
    elements :=
      set.elements.set (hashIdx set element)
        (chainAdd set.comparator element (bucketOf set element)) }

/-- The chain walk of `HashSetGet` (`hashset.c:70-80`): return the first
stored element comparing equal to the probe, or `none` (C's `NULL`). -/
def chainGet (cmp : α → α → Int) (element : α) : List α → Option α
  | [] => none
  | x :: xs => if cmp x element = 0 then some x else chainGet cmp element xs

/-- `HashSetGet` (`hashset.c:70-80`). -/
def HashSetGet (set : HashSet α) (element : α) : Option α :=
  chainGet set.comparator element (bucketOf set element)

/-- `HashSetContains` (`hashset.c:55-57`): `HashSetGet(set, element) != NULL`. -/
def HashSetContains (set : HashSet α) (element : α) : Bool :=
  (HashSetGet set element).isSome

/-- `HashSetNew` (`hashset.c:82-88`): `calloc(count, ...)` yields `count`
empty buckets. -/
def HashSetNew (count : Nat) (hasher : α → Nat) (comparator : α → α → Int) :
    HashSet α :=
  { count := count
    elements := List.replicate count []
    hasher := hasher
    comparator := comparator }

/-- The chain walk of `HashSetRemove` (`hashset.c:89-106`): unlink the first
node comparing equal to the probe (patching the predecessor's `next` or the
bucket head), or leave the chain alone. -/
def chainRemove (cmp : α → α → Int) (element : α) : List α → List α
  | [] => []
  | x :: xs => if cmp x element = 0 then xs else x :: chainRemove cmp element xs

/-- `HashSetRemove` (`hashset.c:89-106`). -/
def HashSetRemove (set : HashSet α) (element : α) : HashSet α :=
  { set with
    elements :=
      set.elements.set (hashIdx set element)
        (chainRemove set.comparator element (bucketOf set element)) }

/-- The `HashSetIterator` struct of `hashset.h`: current bucket index, the
remaining suffix of the current chain (C holds a node pointer; the suffix it
heads is the same data), and the underlying set. -/
structure HashSetIterator (α : Type u) where
  bucket : Nat
  element : List α
  set : HashSet α

/-- `HashSetIteratorNew` (`hashset.c:108-111`): bucket `0`, cursor at
`set->elements[0]`. -/
def HashSetIteratorNew (set : HashSet α) : HashSetIterator α :=
  { bucket := 0, element := set.elements.getD 0 [], set := set }

/-- The `while (i->bucket < i->set->count)` loop of `HashSetIteratorNext`
(`hashset.c:113-126`), with the loop variant `count - bucket` made an
explicit fuel argument (the caller passes exactly `count - bucket`, so
`fuel = 0` is precisely the C loop condition failing).  Returns the yielded
element (or `none`) together with the final `bucket` and chain cursor. -/
def iterNextLoop (set : HashSet α) : Nat → Nat → List α → Option α × Nat × List α
  | 0, bucket, chain => (none, bucket, chain)
  | fuel + 1, bucket, chain =>
    match chain with
    | e :: rest => (some e, bucket, rest)
    | [] =>
      if bucket + 1 = set.count then (none, bucket + 1, [])
      else iterNextLoop set fuel (bucket + 1) (set.elements.getD (bucket + 1) [])

/-- `HashSetIteratorNext` (`hashset.c:113-126`): run the loop, starting from
the stored cursor, and store the cursor it ends with. -/
def HashSetIteratorNext (i : HashSetIterator α) : Option α × HashSetIterator α :=
  let r := iterNextLoop i.set (i.set.count - i.bucket) i.bucket i.element
  (r.1, { bucket := r.2.1, element := r.2.2, set := i.set })

/-- Driver that calls `HashSetIteratorNext` up to `fuel` times, collecting
the yielded elements in order and stopping at the first end-of-sequence
signal; returns the collected elements and the final iterator. -/
def runIter : HashSetIterator α → Nat → List α × HashSetIterator α
  | it, 0 => ([], it)
  | it, fuel + 1 =>
    match HashSetIteratorNext it with
    | (none, it') => ([], it')
    | (some e, it') =>
      let r := runIter it' fuel
      (e :: r.1, r.2)

/-!
### Caller contract and table invariant

`hashset.h` requires only that the caller's hasher and comparator "operate
correctly for the key part of the element": the comparator's zero relation
is an equivalence on keys and key-equal elements hash alike.  `GoodFuns`
records exactly that contract.
-/

/-- The caller contract on the `Hasher`/`Comparator` pair. -/
structure GoodFuns (hasher : α → Nat) (cmp : α → α → Int) : Prop where
  refl : ∀ a, cmp a a = 0
  symm : ∀ a b, cmp a b = 0 → cmp b a = 0
  trans : ∀ a b c, cmp a b = 0 → cmp b c = 0 → cmp a c = 0
  compat : ∀ a b, cmp a b = 0 → hasher a = hasher b

/-- A chain holds pairwise key-distinct elements. -/
def ChainOk (cmp : α → α → Int) (l : List α) : Prop :=
  l.Pairwise fun a b => cmp a b ≠ 0

/-- The table invariant of §3 of the design: at least one bucket, the bucket
array has exactly `count` buckets, every element sits in the chain of the
bucket its key hashes to, and every chain is key-duplicate-free. -/
def Inv (set : HashSet α) : Prop :=
  0 < set.count ∧ set.elements.length = set.count ∧
    (∀ i, i < set.count → ∀ x ∈ set.elements.getD i [], hashIdx set x = i) ∧
    (∀ i, i < set.count → ChainOk set.comparator (set.elements.getD i []))

/-!
### List plumbing
-/

section ListLemmas

variable {β : Type u}

theorem getD_set_self (l : List β) (i : Nat) (v d : β) (h : i < l.length) :
    (l.set i v).getD i d = v := by
  induction l generalizing i with
  | nil => simp at h
  | cons x xs ih =>
    cases i with
    | zero => simp
    | succ n => simpa using ih n (by simpa using h)

theorem getD_set_ne (l : List β) (i j : Nat) (v d : β) (h : i ≠ j) :
    (l.set i v).getD j d = l.getD j d := by
  induction l generalizing i j with
  | nil => simp
  | cons x xs ih =>
    cases i with
    | zero =>
      cases j with
      | zero => exact absurd rfl h
      | succ m => simp
    | succ n =>
      cases j with
      | zero => simp
      | succ m => simpa using ih n m fun hnm => h (by omega)

theorem set_getD_self (l : List β) (i : Nat) (d : β) (h : i < l.length) :
    l.set i (l.getD i d) = l := by
  induction l generalizing i with
  | nil => simp at h
  | cons x xs ih =>
    cases i with
    | zero => simp
    | succ n => simpa using ih n (by simpa using h)

theorem mem_getD_of_mem_flatten {l : List (List β)} {x : β}
    (h : x ∈ l.flatten) : ∃ i, i < l.length ∧ x ∈ l.getD i [] := by
  induction l with
  | nil => simp at h
  | cons c tl ih =>
    rw [List.flatten_cons] at h
    rcases List.mem_append.mp h with hc | htl
    · exact ⟨0, by simp, by simpa using hc⟩
    · obtain ⟨i, hi, hx⟩ := ih htl
      exact ⟨i + 1, by simpa using hi, by simpa using hx⟩

theorem mem_flatten_of_mem_getD {l : List (List β)} {i : Nat} {x : β}
    (hi : i < l.length) (hx : x ∈ l.getD i []) : x ∈ l.flatten := by
  induction l generalizing i with
  | nil => simp at hi
  | cons c tl ih =>
    cases i with
    | zero =>
      simp only [List.flatten_cons, List.mem_append]
      exact Or.inl (by simpa using hx)
    | succ n =>
      simp only [List.flatten_cons, List.mem_append]
      exact Or.inr (ih (by simpa using hi) (by simpa using hx))

end ListLemmas

/-!
### Chain-walk lemmas
-/

section ChainLemmas

variable {cmp : α → α → Int} {e p q : α} {l : List α}

theorem chainAdd_append_of_no_match (h : ∀ x ∈ l, cmp x e ≠ 0) :
    chainAdd cmp e l = l ++ [e] := by
  induction l with
  | nil => rfl
  | cons x xs ih =>
    have hx : cmp x e ≠ 0 := h x (List.mem_cons_self x xs)
    simp only [chainAdd, if_neg hx, List.cons_append, List.cons.injEq, true_and]
    exact ih fun y hy => h y (List.mem_cons_of_mem x hy)

theorem chainAdd_replace_of_match (h : ∃ x ∈ l, cmp x e = 0) :
    ∃ pre x post, l = pre ++ x :: post ∧ (∀ y ∈ pre, cmp y e ≠ 0) ∧
      cmp x e = 0 ∧ chainAdd cmp e l = pre ++ e :: post := by
  induction l with
  | nil => simp at h
  | cons x xs ih =>
    by_cases hx : cmp x e = 0
    · exact ⟨[], x, xs, by simp, by simp, hx, by simp [chainAdd, if_pos hx]⟩
    · obtain ⟨y, hy, hye⟩ := h
      rcases List.mem_cons.mp hy with rfl | hmem
      · exact absurd hye hx
      · obtain ⟨pre, z, post, hdec, hpre, hz, hres⟩ := ih ⟨y, hmem, hye⟩
        refine ⟨x :: pre, z, post, by simp [hdec], ?_, hz, ?_⟩
        · intro w hw
          rcases List.mem_cons.mp hw with rfl | hwp
          · exact hx
          · exact hpre w hwp
        · simp [chainAdd, if_neg hx, hres]

theorem mem_chainAdd {y : α} (h : y ∈ chainAdd cmp e l) : y = e ∨ y ∈ l := by
  induction l with
  | nil => simpa [chainAdd] using h
  | cons x xs ih =>
    by_cases hx : cmp x e = 0
    · simp only [chainAdd, if_pos hx] at h
      rcases List.mem_cons.mp h with rfl | hmem
      · exact Or.inl rfl
      · exact Or.inr (List.mem_cons_of_mem x hmem)
    · simp only [chainAdd, if_neg hx] at h
      rcases List.mem_cons.mp h with rfl | hmem
      · exact Or.inr (List.mem_cons_self y xs)
      · rcases ih hmem with h' | h'
        · exact Or.inl h'
        · exact Or.inr (List.mem_cons_of_mem x h')

theorem chainGet_chainAdd (hs : ∀ a b, cmp a b = 0 → cmp b a = 0)
    (ht : ∀ a b c, cmp a b = 0 → cmp b c = 0 → cmp a c = 0)
    (hep : cmp e p = 0) : chainGet cmp p (chainAdd cmp e l) = some e := by
  induction l with
  | nil => simp [chainAdd, chainGet, if_pos hep]
  | cons x xs ih =>
    by_cases hx : cmp x e = 0
    · simp [chainAdd, if_pos hx, chainGet, if_pos hep]
    · have hxp : cmp x p ≠ 0 := fun hxp =>
        hx (ht x p e hxp (hs e p hep))
      simp [chainAdd, if_neg hx, chainGet, if_neg hxp, ih]

theorem chainGet_eq_none (h : ∀ x ∈ l, cmp x p ≠ 0) : chainGet cmp p l = none := by
  induction l with
  | nil => rfl
  | cons x xs ih =>
    simp only [chainGet, if_neg (h x (List.mem_cons_self x xs))]
    exact ih fun y hy => h y (List.mem_cons_of_mem x hy)

theorem chainOk_chainAdd (ht : ∀ a b c, cmp a b = 0 → cmp b c = 0 → cmp a c = 0)
    (hok : ChainOk cmp l) : ChainOk cmp (chainAdd cmp e l) := by
  by_cases hm : ∃ x ∈ l, cmp x e = 0
  · obtain ⟨pre, x, post, hdec, hpre, hxe, hres⟩ := chainAdd_replace_of_match hm
    subst hdec
    rw [hres]
    rw [ChainOk, List.pairwise_append] at hok ⊢
    obtain ⟨hokPre, hokCons, hcross⟩ := hok
    rw [List.pairwise_cons] at hokCons
    obtain ⟨hxPost, hokPost⟩ := hokCons
    refine ⟨hokPre, ?_, ?_⟩
    · rw [List.pairwise_cons]
      refine ⟨fun q hq heq => ?_, hokPost⟩
      exact hxPost q hq (ht x e q hxe heq)
    · intro a ha b hb
      rcases List.mem_cons.mp hb with rfl | hbPost
      · exact hpre a ha
      · exact hcross a ha b (List.mem_cons_of_mem x hbPost)
  · push_neg at hm
    rw [chainAdd_append_of_no_match hm]
    rw [ChainOk, List.pairwise_append]
    exact ⟨hok, List.pairwise_singleton _ _, fun a ha b hb => by
      rw [List.mem_singleton.mp hb]; exact hm a ha⟩

theorem chainRemove_sublist (cmp : α → α → Int) (q : α) (l : List α) :
    List.Sublist (chainRemove cmp q l) l := by
  induction l with
  | nil => simp [chainRemove]
  | cons x xs ih =>
    by_cases hx : cmp x q = 0
    · simp only [chainRemove, if_pos hx]
      exact List.sublist_cons_self x xs
    · simp only [chainRemove, if_neg hx]
      exact List.Sublist.cons₂ x ih

theorem mem_chainRemove {y : α} (h : y ∈ chainRemove cmp q l) : y ∈ l :=
  (chainRemove_sublist cmp q l).subset h

theorem chainOk_chainRemove (hok : ChainOk cmp l) :
    ChainOk cmp (chainRemove cmp q l) :=
  hok.sublist (chainRemove_sublist cmp q l)

theorem chainRemove_eq_of_no_match (h : ∀ x ∈ l, cmp x q ≠ 0) :
    chainRemove cmp q l = l := by
  induction l with
  | nil => rfl
  | cons x xs ih =>
    simp only [chainRemove, if_neg (h x (List.mem_cons_self x xs))]
    exact congrArg (x :: ·) (ih fun y hy => h y (List.mem_cons_of_mem x hy))

theorem chainRemove_no_match (hs : ∀ a b, cmp a b = 0 → cmp b a = 0)
    (ht : ∀ a b c, cmp a b = 0 → cmp b c = 0 → cmp a c = 0)
    (hok : ChainOk cmp l) : ∀ x ∈ chainRemove cmp q l, cmp x q ≠ 0 := by
  induction l with
  | nil => simp [chainRemove]
  | cons x xs ih =>
    rw [ChainOk, List.pairwise_cons] at hok
    obtain ⟨hxs, hokXs⟩ := hok
    by_cases hx : cmp x q = 0
    · simp only [chainRemove, if_pos hx]
      intro y hy hyq
      exact hxs y hy (ht x q y hx (hs y q hyq))
    · simp only [chainRemove, if_neg hx]
      intro y hy
      rcases List.mem_cons.mp hy with rfl | hmem
      · exact hx
      · exact ih hokXs y hmem

end ChainLemmas

/-!
### Table-level lemmas
-/

section TableLemmas

variable {set : HashSet α} {e p q x : α}

theorem count_add : (HashSetAdd set e).count = set.count := rfl

theorem hasher_add : (HashSetAdd set e).hasher = set.hasher := rfl

theorem comparator_add : (HashSetAdd set e).comparator = set.comparator := rfl

theorem elements_add :
    (HashSetAdd set e).elements =
      set.elements.set (hashIdx set e)
        (chainAdd set.comparator e (bucketOf set e)) := rfl

theorem hashIdx_add : hashIdx (HashSetAdd set e) p = hashIdx set p := rfl

theorem count_remove : (HashSetRemove set q).count = set.count := rfl

theorem hasher_remove : (HashSetRemove set q).hasher = set.hasher := rfl

theorem comparator_remove : (HashSetRemove set q).comparator = set.comparator := rfl

theorem elements_remove :
    (HashSetRemove set q).elements =
      set.elements.set (hashIdx set q)
        (chainRemove set.comparator q (bucketOf set q)) := rfl

theorem hashIdx_remove : hashIdx (HashSetRemove set q) p = hashIdx set p := rfl

theorem hashIdx_lt (hn : 0 < set.count) : hashIdx set e < set.count :=
  Nat.mod_lt _ hn

theorem getD_add_ne (j : Nat) (hj : j ≠ hashIdx set e) :
    (HashSetAdd set e).elements.getD j [] = set.elements.getD j [] := by
  rw [elements_add]
  exact getD_set_ne _ _ _ _ _ fun h => hj h.symm

theorem getD_add_self (hwf : set.elements.length = set.count)
    (hn : 0 < set.count) :
    (HashSetAdd set e).elements.getD (hashIdx set e) [] =
      chainAdd set.comparator e (bucketOf set e) := by
  rw [elements_add]
  exact getD_set_self _ _ _ _ (by rw [hwf]; exact hashIdx_lt hn)

theorem getD_remove_ne (j : Nat) (hj : j ≠ hashIdx set q) :
    (HashSetRemove set q).elements.getD j [] = set.elements.getD j [] := by
  rw [elements_remove]
  exact getD_set_ne _ _ _ _ _ fun h => hj h.symm

theorem getD_remove_self (hwf : set.elements.length = set.count)
    (hn : 0 < set.count) :
    (HashSetRemove set q).elements.getD (hashIdx set q) [] =
      chainRemove set.comparator q (bucketOf set q) := by
  rw [elements_remove]
  exact getD_set_self _ _ _ _ (by rw [hwf]; exact hashIdx_lt hn)

theorem getD_replicate_nil {β : Type u} (n i : Nat) :
    (List.replicate n ([] : List β)).getD i [] = [] := by
  induction n generalizing i with
  | zero => simp
  | succ m ih =>
    cases i with
    | zero => simp
    | succ k => simp [List.replicate_succ, ih k]

theorem inv_new (count : Nat) (hasher : α → Nat) (cmp : α → α → Int)
    (hn : 0 < count) : Inv (HashSetNew count hasher cmp) := by
  refine ⟨hn, by simp [HashSetNew], ?_, ?_⟩
  · intro i hi x hx
    rw [show (HashSetNew count hasher cmp).elements = List.replicate count [] from rfl,
      getD_replicate_nil] at hx
    simp at hx
  · intro i hi
    rw [show (HashSetNew count hasher cmp).elements = List.replicate count [] from rfl,
      getD_replicate_nil]
    exact List.Pairwise.nil

theorem inv_add (good : GoodFuns set.hasher set.comparator) (hinv : Inv set) :
    Inv (HashSetAdd set e) := by
  obtain ⟨hn, hwf, hplace, hok⟩ := hinv
  refine ⟨hn, ?_, ?_, ?_⟩
  · rw [elements_add, List.length_set]
    exact hwf
  · intro i hi x hx
    rw [count_add] at hi
    by_cases hie : i = hashIdx set e
    · subst hie
      rw [getD_add_self hwf hn] at hx
      rw [hashIdx_add]
      rcases mem_chainAdd hx with rfl | hmem
      · rfl
      · exact hplace _ (hashIdx_lt hn) x hmem
    · rw [getD_add_ne i hie] at hx
      rw [hashIdx_add]
      exact hplace i hi x hx
  · intro i hi
    rw [count_add] at hi
    rw [comparator_add]
    by_cases hie : i = hashIdx set e
    · subst hie
      rw [getD_add_self hwf hn]
      exact chainOk_chainAdd good.trans (hok _ (hashIdx_lt hn))
    · rw [getD_add_ne i hie]
      exact hok i hi

theorem inv_remove (hinv : Inv set) : Inv (HashSetRemove set q) := by
  obtain ⟨hn, hwf, hplace, hok⟩ := hinv
  refine ⟨hn, ?_, ?_, ?_⟩
  · rw [elements_remove, List.length_set]
    exact hwf
  · intro i hi x hx
    rw [count_remove] at hi
    by_cases hiq : i = hashIdx set q
    · subst hiq
      rw [getD_remove_self hwf hn] at hx
      rw [hashIdx_remove]
      exact hplace _ (hashIdx_lt hn) x (mem_chainRemove hx)
    · rw [getD_remove_ne i hiq] at hx
      rw [hashIdx_remove]
      exact hplace i hi x hx
  · intro i hi
    rw [count_remove] at hi
    rw [comparator_remove]
    by_cases hiq : i = hashIdx set q
    · subst hiq
      rw [getD_remove_self hwf hn]
      exact chainOk_chainRemove (hok _ (hashIdx_lt hn))
    · rw [getD_remove_ne i hiq]
      exact hok i hi

/-- Table-wide key uniqueness: under the caller contract and the table
invariant, the concatenation of all chains (bucket-ascending, within-bucket
chain order — exactly the order a full iteration visits) holds pairwise
key-distinct elements. -/
theorem flatten_pairwise_of_inv (good : GoodFuns set.hasher set.comparator)
    (hinv : Inv set) :
    set.elements.flatten.Pairwise fun a b => set.comparator a b ≠ 0 := by
  obtain ⟨hn, hwf, hplace, hok⟩ := hinv
  rw [List.pairwise_flatten]
  constructor
  · intro c hc
    obtain ⟨i, hi, hic⟩ := List.mem_iff_getElem.mp hc
    have : set.elements.getD i [] = c := by
      rw [List.getD_eq_getElem _ _ hi]
      exact hic
    rw [← this]
    exact hok i (hwf ▸ hi)
  · rw [List.pairwise_iff_getElem]
    intro i j hi hj hij a ha b hb hab
    have hgi : set.elements.getD i [] = set.elements[i] :=
      List.getD_eq_getElem _ _ hi
    have hgj : set.elements.getD j [] = set.elements[j] :=
      List.getD_eq_getElem _ _ hj
    have hpa : hashIdx set a = i := hplace i (hwf ▸ hi) a (by rw [hgi]; exact ha)
    have hpb : hashIdx set b = j := hplace j (hwf ▸ hj) b (by rw [hgj]; exact hb)
    have : hashIdx set a = hashIdx set b := by
      rw [hashIdx, hashIdx, good.compat a b hab]
    omega

end TableLemmas

/-!
### Iterator lemmas

Iterator state `(b, chain)` still has to yield `chain` and then the
flattening of every bucket strictly after `b`.
-/

section IterLemmas

variable {set : HashSet α}

theorem iterNextLoop_empty_scan (hwf : set.elements.length = set.count) :
    ∀ fuel b, fuel = set.count - b → b < set.count →
      (set.elements.drop (b + 1)).flatten = [] →
      iterNextLoop set fuel b [] = (none, set.count, []) := by
  intro fuel
  induction fuel with
  | zero => intro b hfb hb _; omega
  | succ f ih =>
    intro b hfb hb hflat
    simp only [iterNextLoop]
    by_cases hb1 : b + 1 = set.count
    · rw [if_pos hb1, hb1]
    · rw [if_neg hb1]
      have hlt : b + 1 < set.elements.length := by omega
      have hdrop : set.elements.drop (b + 1) =
          set.elements[b + 1] :: set.elements.drop (b + 1 + 1) :=
        List.drop_eq_getElem_cons hlt
      rw [hdrop, List.flatten_cons] at hflat
      obtain ⟨h1, h2⟩ := List.append_eq_nil.mp hflat
      have hgetD : set.elements.getD (b + 1) [] = [] := by
        rw [List.getD_eq_getElem _ _ hlt]
        exact h1
      rw [hgetD]
      exact ih (b + 1) (by omega) (by omega) h2

theorem iterNextLoop_scan_found (hwf : set.elements.length = set.count) :
    ∀ fuel b (e : α) (rest : List α), fuel = set.count - b → b < set.count →
      (set.elements.drop (b + 1)).flatten = e :: rest →
      ∃ b' ch', iterNextLoop set fuel b [] = (some e, b', ch') ∧
        b' < set.count ∧
        ch' ++ (set.elements.drop (b' + 1)).flatten = rest := by
  intro fuel
  induction fuel with
  | zero => intro b e rest hfb hb _; omega
  | succ f ih =>
    intro b e rest hfb hb hflat
    have hb1 : b + 1 ≠ set.count := by
      intro h
      rw [h, ← hwf, List.drop_length] at hflat
      simp at hflat
    have hlt : b + 1 < set.elements.length := by omega
    have hdrop : set.elements.drop (b + 1) =
        set.elements[b + 1] :: set.elements.drop (b + 1 + 1) :=
      List.drop_eq_getElem_cons hlt
    have hgetD : set.elements.getD (b + 1) [] = set.elements[b + 1] :=
      List.getD_eq_getElem _ _ hlt
    simp only [iterNextLoop, if_neg hb1]
    rw [hgetD]
    rw [hdrop, List.flatten_cons] at hflat
    cases hc : set.elements[b + 1] with
    | nil =>
      rw [hc, List.nil_append] at hflat
      exact ih (b + 1) e rest (by omega) (by omega) hflat
    | cons e0 tail =>
      rw [hc, List.cons_append] at hflat
      obtain ⟨he, hr⟩ := List.cons.inj hflat
      cases f with
      | zero => omega
      | succ f2 =>
        refine ⟨b + 1, tail, ?_, by omega, ?_⟩
        · simp only [iterNextLoop, he]
        · exact hr

theorem next_end (hwf : set.elements.length = set.count) {b : Nat}
    {chain : List α} (hb : b < set.count)
    (hrem : chain ++ (set.elements.drop (b + 1)).flatten = []) :
    HashSetIteratorNext ⟨b, chain, set⟩ = (none, ⟨set.count, [], set⟩) := by
  obtain ⟨hch, hflat⟩ := List.append_eq_nil.mp hrem
  subst hch
  have hloop := iterNextLoop_empty_scan hwf (set.count - b) b rfl hb hflat
  simp only [HashSetIteratorNext, hloop]

theorem next_yield (hwf : set.elements.length = set.count) {b : Nat}
    {chain : List α} (hb : b < set.count) (e : α) (rest : List α)
    (hrem : chain ++ (set.elements.drop (b + 1)).flatten = e :: rest) :
    ∃ b' ch', HashSetIteratorNext ⟨b, chain, set⟩ = (some e, ⟨b', ch', set⟩) ∧
      b' < set.count ∧
      ch' ++ (set.elements.drop (b' + 1)).flatten = rest := by
  cases chain with
  | nil =>
    rw [List.nil_append] at hrem
    obtain ⟨b', ch', hloop, hb', hrem'⟩ :=
      iterNextLoop_scan_found hwf (set.count - b) b e rest rfl hb hrem
    refine ⟨b', ch', ?_, hb', hrem'⟩
    simp only [HashSetIteratorNext, hloop]
  | cons e0 tail =>
    rw [List.cons_append] at hrem
    obtain ⟨he, hr⟩ := List.cons.inj hrem
    refine ⟨b, tail, ?_, hb, hr⟩
    have hfuel : ∃ f, set.count - b = f + 1 := ⟨set.count - b - 1, by omega⟩
    obtain ⟨f, hf⟩ := hfuel
    simp only [HashSetIteratorNext, hf, iterNextLoop, he]

theorem iterNextLoop_none :
    ∀ fuel b (chain : List α) b' ch', fuel = set.count - b →
      iterNextLoop set fuel b chain = (none, b', ch') →
      iterNextLoop set (set.count - b') b' ch' = (none, b', ch') := by
  intro fuel
  induction fuel with
  | zero =>
    intro b chain b' ch' hf h
    simp only [iterNextLoop, Prod.mk.injEq, true_and] at h
    obtain ⟨hb, hc⟩ := h
    subst hb
    subst hc
    rw [← hf]
    rfl
  | succ f ih =>
    intro b chain b' ch' hf h
    cases chain with
    | cons e tail => simp [iterNextLoop] at h
    | nil =>
      simp only [iterNextLoop] at h
      by_cases hb1 : b + 1 = set.count
      · rw [if_pos hb1] at h
        simp only [Prod.mk.injEq, true_and] at h
        obtain ⟨hb, hc⟩ := h
        subst hb
        subst hc
        have h0 : set.count - (b + 1) = 0 := by omega
        rw [h0]
        rfl
      · rw [if_neg hb1] at h
        have hb : b < set.count := by omega
        exact ih (b + 1) _ b' ch' (by omega) h

theorem runIter_yields (hwf : set.elements.length = set.count) :
    ∀ (rem : List α) (b : Nat) (chain : List α), b < set.count →
      chain ++ (set.elements.drop (b + 1)).flatten = rem →
      (runIter ⟨b, chain, set⟩ rem.length).1 = rem ∧
        (HashSetIteratorNext (runIter ⟨b, chain, set⟩ rem.length).2).1 = none := by
  intro rem
  induction rem with
  | nil =>
    intro b chain hb hrem
    refine ⟨rfl, ?_⟩
    show (HashSetIteratorNext ⟨b, chain, set⟩).1 = none
    rw [next_end hwf hb hrem]
  | cons e rest ih =>
    intro b chain hb hrem
    obtain ⟨b', ch', hnext, hb', hrem'⟩ := next_yield hwf hb e rest hrem
    have hrun : runIter ⟨b, chain, set⟩ (e :: rest).length =
        (e :: (runIter ⟨b', ch', set⟩ rest.length).1,
          (runIter ⟨b', ch', set⟩ rest.length).2) := by
      show runIter ⟨b, chain, set⟩ (rest.length + 1) = _
      simp only [runIter, hnext]
    obtain ⟨ih1, ih2⟩ := ih b' ch' hb' hrem'
    rw [hrun, ih1]
    exact ⟨rfl, ih2⟩

theorem remaining_new (hwf : set.elements.length = set.count)
    (hn : 0 < set.count) :
    set.elements.getD 0 [] ++ (set.elements.drop (0 + 1)).flatten =
      set.elements.flatten := by
  cases hel : set.elements with
  | nil => rw [hel] at hwf; simp at hwf; omega
  | cons c tl => simp

end IterLemmas

/-!
### Further helper lemmas used by the claims
-/

section ClaimHelpers

theorem hashSet_ext {s t : HashSet α} (h1 : s.count = t.count)
    (h2 : s.elements = t.elements) (h3 : s.hasher = t.hasher)
    (h4 : s.comparator = t.comparator) : s = t := by
  cases s
  cases t
  simp_all

theorem inv_foldl_add {set : HashSet α}
    (good : GoodFuns set.hasher set.comparator) (hinv : Inv set)
    (ops : List α) : Inv (ops.foldl HashSetAdd set) := by
  induction ops generalizing set with
  | nil => exact hinv
  | cons e rest ih => exact ih good (inv_add good hinv)

theorem hasher_foldl_add {set : HashSet α} (ops : List α) :
    (ops.foldl HashSetAdd set).hasher = set.hasher := by
  induction ops generalizing set with
  | nil => rfl
  | cons e rest ih => exact ih

theorem comparator_foldl_add {set : HashSet α} (ops : List α) :
    (ops.foldl HashSetAdd set).comparator = set.comparator := by
  induction ops generalizing set with
  | nil => rfl
  | cons e rest ih => exact ih

/-- After `HashSetRemove set q`, no element anywhere in the table compares
equal to `q`: the probe's bucket lost its unique match (if any) and, by hash
compatibility, no other bucket could hold one. -/
theorem remove_no_match {set : HashSet α}
    (good : GoodFuns set.hasher set.comparator) (hinv : Inv set) (q : α) :
    ∀ x ∈ (HashSetRemove set q).elements.flatten, set.comparator x q ≠ 0 := by
  obtain ⟨hn, hwf, hplace, hok⟩ := hinv
  intro x hx
  obtain ⟨i, hi, hxi⟩ := mem_getD_of_mem_flatten hx
  have hlen : (HashSetRemove set q).elements.length = set.elements.length := by
    rw [elements_remove, List.length_set]
  rw [hlen] at hi
  by_cases hiq : i = hashIdx set q
  · subst hiq
    rw [getD_remove_self hwf hn] at hxi
    exact chainRemove_no_match good.symm good.trans
      (hok _ (hashIdx_lt hn)) x hxi
  · rw [getD_remove_ne i hiq] at hxi
    intro hxq
    have hpx : hashIdx set x = i := hplace i (by omega) x hxi
    have hxq2 : hashIdx set x = hashIdx set q := by
      rw [hashIdx, hashIdx, good.compat x q hxq]
    exact hiq (by omega)

/-- The general end-of-iteration fixed point: once `HashSetIteratorNext`
signals end, it signals end forever with no further state change. -/
theorem next_none_fix (it it' : HashSetIterator α)
    (h : HashSetIteratorNext it = (none, it')) :
    HashSetIteratorNext it' = (none, it') := by
  rcases hr : iterNextLoop it.set (it.set.count - it.bucket) it.bucket it.element
    with ⟨o, b', ch'⟩
  have hd : HashSetIteratorNext it = (o, ⟨b', ch', it.set⟩) := by
    simp only [HashSetIteratorNext, hr]
  rw [hd] at h
  simp only [Prod.mk.injEq] at h
  obtain ⟨ho, hit⟩ := h
  subst ho
  have hfix := iterNextLoop_none (it.set.count - it.bucket) it.bucket it.element
    b' ch' rfl hr
  rw [← hit]
  simp only [HashSetIteratorNext, hfix]

end ClaimHelpers

/-!
### Concrete instantiation used by the witnesses

Elements are natural numbers that are their own key; the hasher is the
identity and the comparator is integer subtraction, the usual C idiom.
-/

def natHasher (a : Nat) : Nat := a

def natCmp (a b : Nat) : Int := (a : Int) - (b : Int)

theorem natGood : GoodFuns natHasher natCmp := by
  constructor
  · intro a
    simp [natCmp]
  · intro a b h
    simp only [natCmp] at h ⊢
    omega
  · intro a b c h1 h2
    simp only [natCmp] at h1 h2 ⊢
    omega
  · intro a b h
    simp only [natCmp] at h
    simp only [natHasher]
    omega

/-- A concrete two-bucket table holding `4` (bucket 0) and `3` (bucket 1). -/
def wSet1 : HashSet Nat := HashSetAdd (HashSetAdd (HashSetNew 2 natHasher natCmp) 3) 4

theorem wSet1_inv : Inv wSet1 :=
  inv_add natGood (inv_add natGood (inv_new 2 natHasher natCmp (by norm_num)))

/-!
### The claims
-/

/-- Claim C1: for every sequence of `HashSetAdd`s into a fresh table (any
positive bucket count, hasher/comparator obeying the documented caller
contract), the elements stored across all chains are pairwise key-distinct:
at most one element with a given key (per the comparator) is ever present,
so an add of an equal-comparing key replaced rather than duplicated. -/
theorem claim_C1 (hasher : α → Nat) (cmp : α → α → Int)
    (good : GoodFuns hasher cmp) (n : Nat) (hn : 0 < n) (ops : List α) :
    ((ops.foldl HashSetAdd (HashSetNew n hasher cmp)).elements.flatten).Pairwise
      (fun a b => cmp a b ≠ 0) := by
  have hinv : Inv (ops.foldl HashSetAdd (HashSetNew n hasher cmp)) :=
    inv_foldl_add good (inv_new n hasher cmp hn) ops
  have hh : (ops.foldl HashSetAdd (HashSetNew n hasher cmp)).hasher = hasher :=
    hasher_foldl_add ops
  have hc : (ops.foldl HashSetAdd (HashSetNew n hasher cmp)).comparator = cmp :=
    comparator_foldl_add ops
  have good' : GoodFuns (ops.foldl HashSetAdd (HashSetNew n hasher cmp)).hasher
      (ops.foldl HashSetAdd (HashSetNew n hasher cmp)).comparator := by
    rw [hh, hc]
    exact good
  have hp := flatten_pairwise_of_inv good' hinv
  rw [hc] at hp
  exact hp

theorem claim_C1_witness :
    (([3, 4, 3] : List Nat).foldl HashSetAdd
        (HashSetNew 2 natHasher natCmp)).elements.flatten.Pairwise
      (fun a b => natCmp a b ≠ 0) :=
  claim_C1 natHasher natCmp natGood 2 (by norm_num) [3, 4, 3]

/-- Claim C2: inserting `e` and looking it up with a probe `p` whose key
compares equal to `e`'s returns exactly the stored reference `e` (the latest
replacement for that key), and `HashSetContains` on `p` is true. -/
theorem claim_C2 (set : HashSet α) (good : GoodFuns set.hasher set.comparator)
    (hwf : set.elements.length = set.count) (hn : 0 < set.count)
    (e p : α) (hep : set.comparator e p = 0) :
    HashSetGet (HashSetAdd set e) p = some e ∧
      HashSetContains (HashSetAdd set e) p = true := by
  have hidx : hashIdx set p = hashIdx set e := by
    rw [hashIdx, hashIdx, good.compat e p hep]
  have hbucket : bucketOf (HashSetAdd set e) p =
      chainAdd set.comparator e (bucketOf set e) := by
    rw [bucketOf, hashIdx_add, hidx]
    exact getD_add_self hwf hn
  have hget : HashSetGet (HashSetAdd set e) p = some e := by
    rw [HashSetGet, comparator_add, hbucket]
    exact chainGet_chainAdd good.symm good.trans hep
  refine ⟨hget, ?_⟩
  rw [HashSetContains, hget]
  rfl

theorem claim_C2_witness :
    HashSetGet (HashSetAdd wSet1 3) 3 = some 3 ∧
      HashSetContains (HashSetAdd wSet1 3) 3 = true :=
  claim_C2 wSet1 natGood (by decide) (by decide) 3 3 (by decide)

/-- Claim C3: after `HashSetRemove` with probe `q`, `HashSetContains` with
any probe `p` bearing `q`'s key is false, and the whole table (hence any
full iteration, which visits exactly the flattened chains, claim C6) holds
no element comparing equal to that key. -/
theorem claim_C3 (set : HashSet α) (good : GoodFuns set.hasher set.comparator)
    (hinv : Inv set) (q p : α) (hpq : set.comparator p q = 0) :
    HashSetContains (HashSetRemove set q) p = false ∧
      ∀ x ∈ (HashSetRemove set q).elements.flatten, set.comparator x q ≠ 0 := by
  have hnm := remove_no_match good hinv q
  refine ⟨?_, hnm⟩
  have hget : HashSetGet (HashSetRemove set q) p = none := by
    rw [HashSetGet, comparator_remove]
    apply chainGet_eq_none
    intro x hx hxp
    rw [bucketOf] at hx
    have hlen : hashIdx (HashSetRemove set q) p <
        (HashSetRemove set q).elements.length := by
      rw [elements_remove, List.length_set, hinv.2.1, hashIdx_remove]
      exact hashIdx_lt hinv.1
    have hxmem : x ∈ (HashSetRemove set q).elements.flatten :=
      mem_flatten_of_mem_getD hlen hx
    exact hnm x hxmem (good.trans x p q hxp hpq)
  rw [HashSetContains, hget]
  rfl

theorem claim_C3_witness :
    HashSetContains (HashSetRemove wSet1 3) 3 = false ∧
      ∀ x ∈ (HashSetRemove wSet1 3).elements.flatten, wSet1.comparator x 3 ≠ 0 :=
  claim_C3 wSet1 natGood wSet1_inv 3 3 (by decide)

/-- Claim C4: when the computed bucket's chain holds a match for `e`'s key,
`HashSetAdd` replaces the matching node's stored reference in place: the
chain keeps its length and node order (no allocation), and every other
bucket is untouched. -/
theorem claim_C4 (set : HashSet α) (hwf : set.elements.length = set.count)
    (hn : 0 < set.count) (e : α)
    (hmatch : ∃ x ∈ bucketOf set e, set.comparator x e = 0) :
    ∃ pre x post, bucketOf set e = pre ++ x :: post ∧
      (∀ y ∈ pre, set.comparator y e ≠ 0) ∧ set.comparator x e = 0 ∧
      bucketOf (HashSetAdd set e) e = pre ++ e :: post ∧
      (bucketOf (HashSetAdd set e) e).length = (bucketOf set e).length ∧
      ∀ j, j ≠ hashIdx set e →
        (HashSetAdd set e).elements.getD j [] = set.elements.getD j [] := by
  obtain ⟨pre, x, post, hdec, hpre, hxe, hres⟩ := chainAdd_replace_of_match hmatch
  have hbucket : bucketOf (HashSetAdd set e) e = pre ++ e :: post := by
    rw [bucketOf, hashIdx_add, getD_add_self hwf hn]
    exact hres
  refine ⟨pre, x, post, hdec, hpre, hxe, hbucket, ?_,
    fun j hj => getD_add_ne j hj⟩
  rw [hbucket, hdec]
  simp

theorem claim_C4_witness :
    ∃ pre x post, bucketOf wSet1 3 = pre ++ x :: post ∧
      (∀ y ∈ pre, wSet1.comparator y 3 ≠ 0) ∧ wSet1.comparator x 3 = 0 ∧
      bucketOf (HashSetAdd wSet1 3) 3 = pre ++ 3 :: post ∧
      (bucketOf (HashSetAdd wSet1 3) 3).length = (bucketOf wSet1 3).length ∧
      ∀ j, j ≠ hashIdx wSet1 3 →
        (HashSetAdd wSet1 3).elements.getD j [] = wSet1.elements.getD j [] :=
  claim_C4 wSet1 (by decide) (by decide) 3 (by decide)

/-- Claim C5: when the computed bucket's chain holds no match for `e`'s key,
`HashSetAdd` appends a new node holding `e` at the end of that chain (the
sole node if the bucket was empty), leaving every previously stored element
in place and every other bucket untouched. -/
theorem claim_C5 (set : HashSet α) (hwf : set.elements.length = set.count)
    (hn : 0 < set.count) (e : α)
    (hnomatch : ∀ x ∈ bucketOf set e, set.comparator x e ≠ 0) :
    bucketOf (HashSetAdd set e) e = bucketOf set e ++ [e] ∧
      ∀ j, j ≠ hashIdx set e →
        (HashSetAdd set e).elements.getD j [] = set.elements.getD j [] := by
  constructor
  · rw [bucketOf, hashIdx_add, getD_add_self hwf hn]
    exact chainAdd_append_of_no_match hnomatch
  · exact fun j hj => getD_add_ne j hj

theorem claim_C5_witness :
    bucketOf (HashSetAdd wSet1 5) 5 = bucketOf wSet1 5 ++ [5] ∧
      ∀ j, j ≠ hashIdx wSet1 5 →
        (HashSetAdd wSet1 5).elements.getD j [] = wSet1.elements.getD j [] :=
  claim_C5 wSet1 (by decide) (by decide) 5 (by decide)

/-- Claim C6: iterating a table of N live key-unique elements
(`HashSetIteratorNew`, then N `HashSetIteratorNext` calls) yields exactly
the flattening of the bucket array — every live element exactly once, in
bucket-ascending, within-bucket chain order — and the next call then
signals end-of-sequence; for N = 0 the first call already signals end. -/
theorem claim_C6 (set : HashSet α) (good : GoodFuns set.hasher set.comparator)
    (hinv : Inv set) :
    (runIter (HashSetIteratorNew set) set.elements.flatten.length).1 =
        set.elements.flatten ∧
      set.elements.flatten.Nodup ∧
      (HashSetIteratorNext
        (runIter (HashSetIteratorNew set) set.elements.flatten.length).2).1 =
        none := by
  obtain ⟨hn, hwf, hplace, hok⟩ := hinv
  have hrem := remaining_new hwf hn
  have hiter := runIter_yields hwf set.elements.flatten 0
    (set.elements.getD 0 []) hn hrem
  refine ⟨hiter.1, ?_, hiter.2⟩
  have hp := flatten_pairwise_of_inv good ⟨hn, hwf, hplace, hok⟩
  exact List.Pairwise.imp
    (fun hab hEq => hab (by rw [hEq]; exact good.refl _)) hp

theorem claim_C6_witness :
    (runIter (HashSetIteratorNew wSet1) wSet1.elements.flatten.length).1 =
        wSet1.elements.flatten ∧
      wSet1.elements.flatten.Nodup ∧
      (HashSetIteratorNext
        (runIter (HashSetIteratorNew wSet1) wSet1.elements.flatten.length).2).1 =
        none :=
  claim_C6 wSet1 natGood wSet1_inv

/-- Claim C7: an iterator that has signalled end-of-sequence is a fixed
point of `HashSetIteratorNext`: every further call signals end again with
the very same iterator state, so an exhausted iterator never resets itself
and only `HashSetIteratorNew` restarts traversal. -/
theorem claim_C7 (it it' : HashSetIterator α)
    (h : HashSetIteratorNext it = (none, it')) :
    HashSetIteratorNext it' = (none, it') :=
  next_none_fix it it' h

theorem claim_C7_witness :
    HashSetIteratorNext (⟨2, [], wSet1⟩ : HashSetIterator Nat) =
      (none, (⟨2, [], wSet1⟩ : HashSetIterator Nat)) :=
  claim_C7 ⟨1, [], wSet1⟩ ⟨2, [], wSet1⟩ rfl

/-- Claim C8: `HashSetRemove` with a probe whose key has no match in its
computed bucket is a complete no-op: the resulting table — bucket count,
bucket array, every chain, hasher and comparator — is the original one. -/
theorem claim_C8 (set : HashSet α) (hwf : set.elements.length = set.count)
    (hn : 0 < set.count) (q : α)
    (hnomatch : ∀ x ∈ bucketOf set q, set.comparator x q ≠ 0) :
    HashSetRemove set q = set := by
  have hel : (HashSetRemove set q).elements = set.elements := by
    rw [elements_remove, chainRemove_eq_of_no_match hnomatch, bucketOf,
      set_getD_self set.elements _ _ (by rw [hwf]; exact hashIdx_lt hn)]
  exact hashSet_ext rfl hel rfl rfl

theorem claim_C8_witness : HashSetRemove wSet1 6 = wSet1 :=
  claim_C8 wSet1 (by decide) (by decide) 6 (by decide)

/-- Claim C9: every operation is a terminating, deterministic walk of at
most one chain.  `HashSetGet`/`HashSetContains` depend only on the
comparator and the probe's single bucket chain (two tables agreeing there
answer identically), and a full iteration from `HashSetIteratorNew`
terminates: after the finitely many yields — one pass over each bucket's
chain — `HashSetIteratorNext` signals end-of-sequence. -/
theorem claim_C9 (set set' : HashSet α) (p : α)
    (hwf : set.elements.length = set.count) (hn : 0 < set.count)
    (hcmp : set.comparator = set'.comparator)
    (hb : bucketOf set p = bucketOf set' p) :
    (HashSetGet set p = HashSetGet set' p ∧
      HashSetContains set p = HashSetContains set' p) ∧
      (runIter (HashSetIteratorNew set) set.elements.flatten.length).1 =
        set.elements.flatten ∧
      (HashSetIteratorNext
        (runIter (HashSetIteratorNew set) set.elements.flatten.length).2).1 =
        none := by
  have hget : HashSetGet set p = HashSetGet set' p := by
    rw [HashSetGet, HashSetGet, hcmp, hb]
  have hrem := remaining_new hwf hn
  have hiter := runIter_yields hwf set.elements.flatten 0
    (set.elements.getD 0 []) hn hrem
  exact ⟨⟨hget, by rw [HashSetContains, HashSetContains, hget]⟩,
    hiter.1, hiter.2⟩

theorem claim_C9_witness :
    (HashSetGet wSet1 0 = HashSetGet wSet1 0 ∧
      HashSetContains wSet1 0 = HashSetContains wSet1 0) ∧
      (runIter (HashSetIteratorNew wSet1) wSet1.elements.flatten.length).1 =
        wSet1.elements.flatten ∧
      (HashSetIteratorNext
        (runIter (HashSetIteratorNew wSet1) wSet1.elements.flatten.length).2).1 =
        none :=
  claim_C9 wSet1 wSet1 0 (by decide) (by decide) rfl rfl

/-- Claim C10: `HashSetAdd` and `HashSetRemove` modify at most the single
bucket their argument hashes to: every other bucket's chain, the bucket
count, and the stored hasher and comparator are unchanged. -/
theorem claim_C10 (set : HashSet α) (_hn : 0 < set.count) (e q : α) :
    ((HashSetAdd set e).count = set.count ∧
      (HashSetAdd set e).hasher = set.hasher ∧
      (HashSetAdd set e).comparator = set.comparator ∧
      ∀ j, j ≠ hashIdx set e →
        (HashSetAdd set e).elements.getD j [] = set.elements.getD j []) ∧
    ((HashSetRemove set q).count = set.count ∧
      (HashSetRemove set q).hasher = set.hasher ∧
      (HashSetRemove set q).comparator = set.comparator ∧
      ∀ j, j ≠ hashIdx set q →
        (HashSetRemove set q).elements.getD j [] = set.elements.getD j []) :=
  ⟨⟨rfl, rfl, rfl, fun j hj => getD_add_ne j hj⟩,
    ⟨rfl, rfl, rfl, fun j hj => getD_remove_ne j hj⟩⟩

theorem claim_C10_witness :
    ((HashSetAdd wSet1 7).count = wSet1.count ∧
      (HashSetAdd wSet1 7).hasher = wSet1.hasher ∧
      (HashSetAdd wSet1 7).comparator = wSet1.comparator ∧
      ∀ j, j ≠ hashIdx wSet1 7 →
        (HashSetAdd wSet1 7).elements.getD j [] = wSet1.elements.getD j []) ∧
    ((HashSetRemove wSet1 8).count = wSet1.count ∧
      (HashSetRemove wSet1 8).hasher = wSet1.hasher ∧
      (HashSetRemove wSet1 8).comparator = wSet1.comparator ∧
      ∀ j, j ≠ hashIdx wSet1 8 →
        (HashSetRemove wSet1 8).elements.getD j [] = wSet1.elements.getD j []) :=
  claim_C10 wSet1 (by decide) 7 8

end HashSetC
